import Mathlib

/-
Verification of a list-based symbol table (src/src/symtablelist.c).

Embedding conventions:
- A C string key is a Lean `String`; `strcmp(a, b) == 0` is `String` equality,
  which compares the character sequences exactly (case-sensitive, byte-wise).
- A `void *` value is `Option V` for a type parameter `V`; `none` is the NULL
  pointer.  Storing a value stores the reference itself, never a copy.
- The singly linked chain of `struct abind` nodes rooted at `first` is a
  `List (abind V)`; the `next` pointer of each node is the position in the
  list, head of the list = head of the chain.
- `uiSize` is a C `unsigned int`; its arithmetic is carried out modulo 2^32
  (`uiSize += 1` becomes `(uiSize + 1) % UINT_MOD`, `uiSize -= 1` becomes
  `(uiSize + (UINT_MOD - 1)) % UINT_MOD`).
- `assert(p)` on a possibly-NULL argument is modelled by `_checked` wrappers
  taking `Option` arguments and returning `CResult`, where `assertFailed` is
  the fatal assertion failure; the unchecked functions carry the non-NULL
  payloads.
- Each `while` loop is a structural recursion on the chain list, named
  `...Loop`.
-/

set_option maxHeartbeats 1000000

/-- Modulus of the C `unsigned int` type (2^32). -/
def UINT_MOD : Nat := 4294967296

/-- `struct abind`: a binding owns a copy of its key (a string) and holds a
non-owning reference to a value (a possibly-NULL pointer, hence `Option V`).
The `next` field is represented by list structure. -/
structure abind (V : Type) where
  key : String
  value : Option V
deriving DecidableEq, Repr

/-- `struct SymTable`: the stored binding count `uiSize` and the chain of
bindings starting at `first`. -/
structure SymTable (V : Type) where
  uiSize : Nat
  first : List (abind V)
deriving DecidableEq, Repr

/-- `SymTable_new`: a table with count 0 and an empty chain. -/
def SymTable_new (V : Type) : SymTable V :=
  { uiSize := 0, first := [] }

/-- The scan loop of `SymTable_contains`: walk the chain; on the first node
whose key compares equal (`!strcmp`) return 1; if the walk falls off the end
return 0. -/
def containsLoop {V : Type} : List (abind V) → String → Nat
  | [], _ => 0
  | b :: rest, k => if b.key = k then 1 else containsLoop rest k

/-- `SymTable_contains`: runs the scan loop from the head of the chain. -/
def SymTable_contains {V : Type} (t : SymTable V) (k : String) : Nat :=
  containsLoop t.first k

/-- `SymTable_getLength`: returns the stored `uiSize` field. -/
def SymTable_getLength {V : Type} (t : SymTable V) : Nat :=
  t.uiSize

/-- `SymTable_put`: if `SymTable_contains` reports the key present (nonzero),
return 0 and leave the table alone.  Otherwise build a new binding whose key
is a fresh copy of `k` (copying an immutable string is the identity here) and
whose value is the reference `v` itself, link it in front of the old chain,
bump `uiSize` by one (unsigned arithmetic), and return 1. -/
def SymTable_put {V : Type} (t : SymTable V) (k : String) (v : Option V) :
    Nat × SymTable V :=
  if SymTable_contains t k ≠ 0 then
    (0, t)
  else
    (1, { uiSize := (t.uiSize + 1) % UINT_MOD,
          first := { key := k, value := v } :: t.first })

/-- The scan loop of `SymTable_get`: walk the chain; on the first node whose
key compares equal return its stored value pointer; at the end of the chain
return NULL (`none`). -/
def getLoop {V : Type} : List (abind V) → String → Option V
  | [], _ => none
  | b :: rest, k => if b.key = k then b.value else getLoop rest k

/-- `SymTable_get`: runs the scan loop from the head of the chain. -/
def SymTable_get {V : Type} (t : SymTable V) (k : String) : Option V :=
  getLoop t.first k

/-- The scan loop of `SymTable_remove`: walk the chain keeping the previous
node; on the first node whose key compares equal, unlink it (return the chain
with that one node spliced out, which covers both the head case and the
interior case of the C code); if no node matches, report `none`. -/
def removeLoop {V : Type} : List (abind V) → String → Option (List (abind V))
  | [], _ => none
  | b :: rest, k =>
    if b.key = k then some rest
    else (removeLoop rest k).map (fun l => b :: l)

/-- `SymTable_remove`: run the scan loop; on failure return 0 with the table
untouched; on success install the spliced chain, drop `uiSize` by one
(unsigned arithmetic), and return 1. -/
def SymTable_remove {V : Type} (t : SymTable V) (k : String) :
    Nat × SymTable V :=
  match removeLoop t.first k with
  | none => (0, t)
  | some l => (1, { uiSize := (t.uiSize + (UINT_MOD - 1)) % UINT_MOD,
                    first := l })

/-- The loop of `SymTable_map`: call `pfApply` on `(key, value, pvExtra)` of
each node from head to tail.  The C apply function acts by side effect; here
the trace of call results is collected in call order. -/
def mapLoop {V E A : Type} (pfApply : String → Option V → E → A) (pvExtra : E) :
    List (abind V) → List A
  | [] => []
  | b :: rest => pfApply b.key b.value pvExtra :: mapLoop pfApply pvExtra rest

/-- `SymTable_map`: runs the apply loop from the head of the chain. -/
def SymTable_map {V E A : Type} (t : SymTable V)
    (pfApply : String → Option V → E → A) (pvExtra : E) : List A :=
  mapLoop pfApply pvExtra t.first

/-- `SymTable_contains` in state-passing form.  The body of the C function
only reads `symtable->first` and the keys; it contains no store to the table
or to any binding, so the outgoing state is the incoming one. -/
def SymTable_contains_run {V : Type} (t : SymTable V) (k : String) :
    Nat × SymTable V :=
  (SymTable_contains t k, t)

/-- `SymTable_get` in state-passing form; the body performs no store. -/
def SymTable_get_run {V : Type} (t : SymTable V) (k : String) :
    Option V × SymTable V :=
  (SymTable_get t k, t)

/-- `SymTable_map` in state-passing form; the loop performs no store to the
table or to any binding (only `pfApply` itself could, which is outside the
table code). -/
def SymTable_map_run {V E A : Type} (t : SymTable V)
    (pfApply : String → Option V → E → A) (pvExtra : E) :
    List A × SymTable V :=
  (SymTable_map t pfApply pvExtra, t)

/-- Result of a call whose preconditions are guarded by `assert`: either the
normal result or a fatal assertion failure. -/
inductive CResult (A : Type) where
  | ok : A → CResult A
  | assertFailed : CResult A
deriving DecidableEq, Repr

/-- `SymTable_getLength` with its `assert(symtable)` guard: a NULL table is a
fatal assertion failure. -/
def SymTable_getLength_checked {V : Type} (t : Option (SymTable V)) :
    CResult Nat :=
  match t with
  | none => CResult.assertFailed
  | some t0 => CResult.ok (SymTable_getLength t0)

/-- `SymTable_contains` with its `assert(symtable); assert(pcKey)` guards. -/
def SymTable_contains_checked {V : Type} (t : Option (SymTable V))
    (k : Option String) : CResult Nat :=
  match t with
  | none => CResult.assertFailed
  | some t0 =>
    match k with
    | none => CResult.assertFailed
    | some k0 => CResult.ok (SymTable_contains t0 k0)

/-- `SymTable_put` with its `assert(symtable); assert(pcKey)` guards. -/
def SymTable_put_checked {V : Type} (t : Option (SymTable V))
    (k : Option String) (v : Option V) : CResult (Nat × SymTable V) :=
  match t with
  | none => CResult.assertFailed
  | some t0 =>
    match k with
    | none => CResult.assertFailed
    | some k0 => CResult.ok (SymTable_put t0 k0 v)

/-- `SymTable_get` with its `assert(symtable); assert(pcKey)` guards. -/
def SymTable_get_checked {V : Type} (t : Option (SymTable V))
    (k : Option String) : CResult (Option V) :=
  match t with
  | none => CResult.assertFailed
  | some t0 =>
    match k with
    | none => CResult.assertFailed
    | some k0 => CResult.ok (SymTable_get t0 k0)

/-- `SymTable_remove` with its `assert(symtable); assert(pcKey)` guards. -/
def SymTable_remove_checked {V : Type} (t : Option (SymTable V))
    (k : Option String) : CResult (Nat × SymTable V) :=
  match t with
  | none => CResult.assertFailed
  | some t0 =>
    match k with
    | none => CResult.assertFailed
    | some k0 => CResult.ok (SymTable_remove t0 k0)

/-- `SymTable_map` with its `assert(symtable); assert(pfApply)` guards. -/
def SymTable_map_checked {V E A : Type} (t : Option (SymTable V))
    (pfApply : Option (String → Option V → E → A)) (pvExtra : E) :
    CResult (List A) :=
  match t with
  | none => CResult.assertFailed
  | some t0 =>
    match pfApply with
    | none => CResult.assertFailed
    | some f => CResult.ok (SymTable_map t0 f pvExtra)

/-- A mutating operation on a table: the two API calls that change state. -/
inductive TableOp (V : Type) where
  | put : String → Option V → TableOp V
  | remove : String → TableOp V
deriving DecidableEq, Repr

/-- Run one operation, keeping only the table (the status code is dropped). -/
def applyOp {V : Type} (t : SymTable V) : TableOp V → SymTable V
  | TableOp.put k v => (SymTable_put t k v).2
  | TableOp.remove k => (SymTable_remove t k).2

/-- Run a sequence of operations starting from a fresh empty table.  The
tables produced this way are exactly the tables reachable through the API. -/
def runOps {V : Type} (ops : List (TableOp V)) : SymTable V :=
  ops.foldl applyOp (SymTable_new V)

/-- The key-value pair carried by a binding. -/
def bindKV {V : Type} (b : abind V) : String × Option V :=
  (b.key, b.value)

/-- One step of the insertion-order model: a successful put appends the new
pair at the end (it is the most recent insertion), a duplicate put changes
nothing, and a remove erases the binding of the key. -/
def insStep {V : Type} (acc : List (String × Option V)) :
    TableOp V → List (String × Option V)
  | TableOp.put k v =>
    if acc.any (fun p => p.1 == k) then acc else acc ++ [(k, v)]
  | TableOp.remove k => acc.eraseP (fun p => p.1 == k)

/-- The surviving bindings of an operation sequence, listed in insertion
order (oldest first). -/
def insModel {V : Type} (ops : List (TableOp V)) :
    List (String × Option V) :=
  ops.foldl insStep []

/-- The contains loop reports 0 exactly when no node of the chain carries an
equal key. -/
theorem containsLoop_eq_zero_iff {V : Type} (l : List (abind V)) (k : String) :
    containsLoop l k = 0 ↔ ∀ b ∈ l, b.key ≠ k := by
  induction l with
  | nil => simp [containsLoop]
  | cons b rest ih =>
    by_cases h : b.key = k
    · simp [containsLoop, h]
    · simp [containsLoop, h, ih]

/-- The contains loop only ever returns 0 or 1. -/
theorem containsLoop_zero_or_one {V : Type} (l : List (abind V)) (k : String) :
    containsLoop l k = 0 ∨ containsLoop l k = 1 := by
  induction l with
  | nil => exact Or.inl rfl
  | cons b rest ih =>
    by_cases h : b.key = k
    · exact Or.inr (by simp [containsLoop, h])
    · simpa [containsLoop, h] using ih

/-- The get loop returns NULL when no node of the chain carries an equal
key. -/
theorem getLoop_eq_none_of_absent {V : Type} (l : List (abind V)) (k : String)
    (h : ∀ b ∈ l, b.key ≠ k) : getLoop l k = none := by
  induction l with
  | nil => rfl
  | cons b rest ih =>
    have hb : b.key ≠ k := h b (List.mem_cons_self b rest)
    rw [getLoop, if_neg hb]
    exact ih (fun b2 hb2 => h b2 (List.mem_cons_of_mem b hb2))

/-- The remove loop fails exactly when no node of the chain carries an equal
key. -/
theorem removeLoop_eq_none_iff {V : Type} (l : List (abind V)) (k : String) :
    removeLoop l k = none ↔ ∀ b ∈ l, b.key ≠ k := by
  induction l with
  | nil => simp [removeLoop]
  | cons b rest ih =>
    by_cases h : b.key = k
    · simp [removeLoop, h]
    · simp [removeLoop, h, ih]

/-- When the remove loop succeeds, the chain decomposes around the first
matching node, whose removal is exactly the splice performed by the C code. -/
theorem removeLoop_some_spec {V : Type} (l : List (abind V)) (k : String)
    (l2 : List (abind V)) (h : removeLoop l k = some l2) :
    ∃ l1 b l3, l = l1 ++ b :: l3
      ∧ (∀ b2 ∈ l1, b2.key ≠ k)
      ∧ b.key = k
      ∧ l2 = l1 ++ l3 := by
  induction l generalizing l2 with
  | nil => simp [removeLoop] at h
  | cons b rest ih =>
    by_cases hk : b.key = k
    · refine ⟨[], b, rest, by simp, by simp, hk, ?_⟩
      simp [removeLoop, hk] at h
      exact h.symm
    · rw [removeLoop, if_neg hk] at h
      cases hr : removeLoop rest k with
      | none => rw [hr] at h; simp at h
      | some l2x =>
      rw [hr] at h
      simp only [Option.map_some'] at h
      obtain rfl : b :: l2x = l2 := Option.some.inj h
      obtain ⟨l1, b0, l3, hEq, hAbs, hKey, hSplice⟩ := ih l2x hr
      exact ⟨b :: l1, b0, l3, by simp [hEq],
        by
          intro b2 hb2
          rcases List.mem_cons.mp hb2 with hh | hh
          · exact hh ▸ hk
          · exact hAbs b2 hh,
        hKey, by simp [hSplice]⟩

/-- Claim C1: putting a key that is not yet bound returns 1, links a new
binding carrying a fresh copy of the key and the value reference itself as
the new head of the chain, and increments the count by one. -/
theorem put_fresh_key_spec {V : Type} (t : SymTable V) (k : String)
    (v : Option V) (habs : SymTable_contains t k = 0)
    (hsz : t.uiSize + 1 < UINT_MOD) :
    (SymTable_put t k v).1 = 1
    ∧ (SymTable_put t k v).2.first = { key := k, value := v } :: t.first
    ∧ (SymTable_put t k v).2.uiSize = t.uiSize + 1 := by
  have hc : ¬ SymTable_contains t k ≠ 0 := by simp [habs]
  unfold SymTable_put
  rw [if_neg hc]
  exact ⟨rfl, rfl, Nat.mod_eq_of_lt hsz⟩

/-- Witness for C1: inserting into the empty table. -/
theorem put_fresh_key_spec_witness :
    SymTable_contains (SymTable_new Nat) "a" = 0
    ∧ (SymTable_new Nat).uiSize + 1 < UINT_MOD
    ∧ ((SymTable_put (SymTable_new Nat) "a" (some 5)).1 = 1
       ∧ (SymTable_put (SymTable_new Nat) "a" (some 5)).2.first
           = { key := "a", value := some 5 } :: (SymTable_new Nat).first
       ∧ (SymTable_put (SymTable_new Nat) "a" (some 5)).2.uiSize
           = (SymTable_new Nat).uiSize + 1) :=
  ⟨by decide, by decide,
    put_fresh_key_spec (SymTable_new Nat) "a" (some 5) (by decide) (by decide)⟩

/-- Claim C2: putting a key that is already bound returns 0 and leaves the
table completely unchanged, binding values, chain and count included. -/
theorem put_duplicate_key_spec {V : Type} (t : SymTable V) (k : String)
    (v : Option V) (hdup : SymTable_contains t k = 1) :
    SymTable_put t k v = (0, t) := by
  simp [SymTable_put, hdup]

/-- Witness for C2: re-inserting the only key of a one-binding table. -/
theorem put_duplicate_key_spec_witness :
    SymTable_contains (SymTable_put (SymTable_new Nat) "a" (some 5)).2 "a" = 1
    ∧ SymTable_put (SymTable_put (SymTable_new Nat) "a" (some 5)).2 "a" (some 7)
        = (0, (SymTable_put (SymTable_new Nat) "a" (some 5)).2) :=
  ⟨by decide,
    put_duplicate_key_spec (SymTable_put (SymTable_new Nat) "a" (some 5)).2
      "a" (some 7) (by decide)⟩

/-- Claim C3: remove scans from the head comparing keys by exact equality;
on the first match it splices that binding out, drops the count by one, and
returns 1; when nothing matches it returns 0 and leaves chain and count
untouched. -/
theorem remove_spec {V : Type} (t : SymTable V) (k : String) :
    (SymTable_contains t k = 0 → SymTable_remove t k = (0, t))
    ∧ (SymTable_contains t k = 1 → 0 < t.uiSize → t.uiSize < UINT_MOD →
        (SymTable_remove t k).1 = 1
        ∧ (SymTable_remove t k).2.uiSize = t.uiSize - 1
        ∧ ∃ l1 b l3, t.first = l1 ++ b :: l3
            ∧ (∀ b2 ∈ l1, b2.key ≠ k)
            ∧ b.key = k
            ∧ (SymTable_remove t k).2.first = l1 ++ l3) := by
  constructor
  · intro h0
    have habs : ∀ b ∈ t.first, b.key ≠ k := (containsLoop_eq_zero_iff t.first k).mp h0
    have hnone : removeLoop t.first k = none := (removeLoop_eq_none_iff t.first k).mpr habs
    unfold SymTable_remove
    rw [hnone]
  · intro h1 hpos hlt
    cases hr : removeLoop t.first k with
    | none =>
      have habs := (removeLoop_eq_none_iff t.first k).mp hr
      have h0 := (containsLoop_eq_zero_iff t.first k).mpr habs
      rw [SymTable_contains] at h1
      omega
    | some l2 =>
      obtain ⟨l1, b, l3, hEq, hAbs, hKey, hSplice⟩ := removeLoop_some_spec t.first k l2 hr
      unfold SymTable_remove
      rw [hr]
      refine ⟨rfl, ?_, l1, b, l3, hEq, hAbs, hKey, by rw [hSplice]⟩
      show (t.uiSize + (UINT_MOD - 1)) % UINT_MOD = t.uiSize - 1
      simp only [UINT_MOD] at hlt ⊢
      omega

/-- Witness for C3: removing the only key of a one-binding table. -/
theorem remove_spec_witness :
    SymTable_contains (SymTable_put (SymTable_new Nat) "a" (some 5)).2 "a" = 1
    ∧ 0 < (SymTable_put (SymTable_new Nat) "a" (some 5)).2.uiSize
    ∧ (SymTable_put (SymTable_new Nat) "a" (some 5)).2.uiSize < UINT_MOD
    ∧ (SymTable_remove (SymTable_put (SymTable_new Nat) "a" (some 5)).2 "a").1 = 1 :=
  ⟨by decide, by decide, by decide,
    ((remove_spec (SymTable_put (SymTable_new Nat) "a" (some 5)).2 "a").2
      (by decide) (by decide) (by decide)).1⟩

/-- Claim C5: a successful put followed immediately by a get of the same key
returns the value just stored; a put that failed because the key was already
bound leaves the got value and the count exactly as before the put. -/
theorem put_then_get_spec {V : Type} (t : SymTable V) (k : String)
    (v : Option V) :
    ((SymTable_put t k v).1 = 1 → SymTable_get (SymTable_put t k v).2 k = v)
    ∧ (SymTable_contains t k = 1 →
        SymTable_get (SymTable_put t k v).2 k = SymTable_get t k
        ∧ SymTable_getLength (SymTable_put t k v).2 = SymTable_getLength t) := by
  constructor
  · intro h
    by_cases hc : SymTable_contains t k ≠ 0
    · rw [SymTable_put, if_pos hc] at h
      simp at h
    · rw [SymTable_put, if_neg hc]
      simp [SymTable_get, getLoop]
  · intro h
    have hput : SymTable_put t k v = (0, t) := put_duplicate_key_spec t k v h
    rw [hput]
    exact ⟨rfl, rfl⟩

/-- Witness for C5: put then get on the empty table. -/
theorem put_then_get_spec_witness :
    ((SymTable_put (SymTable_new Nat) "a" (some 3)).1 = 1 →
      SymTable_get (SymTable_put (SymTable_new Nat) "a" (some 3)).2 "a" = some 3)
    ∧ (SymTable_contains (SymTable_new Nat) "a" = 1 →
        SymTable_get (SymTable_put (SymTable_new Nat) "a" (some 3)).2 "a"
            = SymTable_get (SymTable_new Nat) "a"
        ∧ SymTable_getLength (SymTable_put (SymTable_new Nat) "a" (some 3)).2
            = SymTable_getLength (SymTable_new Nat)) :=
  put_then_get_spec (SymTable_new Nat) "a" (some 3)

/-- Claim C7: contains and get leave the table state untouched, so calling
either repeatedly with no mutation in between yields identical results. -/
theorem query_no_side_effects {V : Type} (t : SymTable V) (k : String) :
    (SymTable_contains_run t k).2 = t
    ∧ (SymTable_get_run t k).2 = t
    ∧ (SymTable_contains_run (SymTable_contains_run t k).2 k).1
        = (SymTable_contains_run t k).1
    ∧ (SymTable_get_run (SymTable_get_run t k).2 k).1
        = (SymTable_get_run t k).1 :=
  ⟨rfl, rfl, rfl, rfl⟩

/-- Claim C8: every operation requiring a non-null argument turns a NULL
table, NULL key or NULL apply function into a fatal assertion failure, never
a normal result. -/
theorem null_argument_assert_spec {V E A : Type} (t : SymTable V)
    (k : String) (v : Option V) (f : String → Option V → E → A) (e : E) :
    SymTable_getLength_checked (V := V) none = CResult.assertFailed
    ∧ SymTable_contains_checked (V := V) none (some k) = CResult.assertFailed
    ∧ SymTable_contains_checked (some t) none = CResult.assertFailed
    ∧ SymTable_put_checked none (some k) v = CResult.assertFailed
    ∧ SymTable_put_checked (some t) none v = CResult.assertFailed
    ∧ SymTable_get_checked (V := V) none (some k) = CResult.assertFailed
    ∧ SymTable_get_checked (some t) none = CResult.assertFailed
    ∧ SymTable_remove_checked (V := V) none (some k) = CResult.assertFailed
    ∧ SymTable_remove_checked (some t) none = CResult.assertFailed
    ∧ SymTable_map_checked none (some f) e = CResult.assertFailed
    ∧ SymTable_map_checked (V := V) (E := E) (A := A) (some t) none e
        = CResult.assertFailed :=
  ⟨rfl, rfl, rfl, rfl, rfl, rfl, rfl, rfl, rfl, rfl, rfl⟩

/-- Claim C9: after a successful put of the NULL value the key is bound
(contains reports 1) yet get returns NULL for it, exactly the result get
gives for a key that is not bound at all. -/
theorem null_value_indistinguishable {V : Type} (t : SymTable V)
    (k k2 : String) (h1 : (SymTable_put t k none).1 = 1)
    (h2 : SymTable_contains (SymTable_put t k none).2 k2 = 0) :
    SymTable_get (SymTable_put t k none).2 k = none
    ∧ SymTable_contains (SymTable_put t k none).2 k = 1
    ∧ SymTable_get (SymTable_put t k none).2 k2 = none := by
  have habs : ∀ b ∈ (SymTable_put t k none).2.first, b.key ≠ k2 :=
    (containsLoop_eq_zero_iff (SymTable_put t k none).2.first k2).mp h2
  refine ⟨?_, ?_, getLoop_eq_none_of_absent _ k2 habs⟩
  · by_cases hc : SymTable_contains t k ≠ 0
    · rw [SymTable_put, if_pos hc] at h1
      simp at h1
    · rw [SymTable_put, if_neg hc]
      simp [SymTable_get, getLoop]
  · by_cases hc : SymTable_contains t k ≠ 0
    · rw [SymTable_put, if_pos hc] at h1
      simp at h1
    · rw [SymTable_put, if_neg hc]
      simp [SymTable_contains, containsLoop]

/-- Witness for C9: a NULL value stored under key a, queried against the
absent key b. -/
theorem null_value_indistinguishable_witness :
    (SymTable_put (SymTable_new Nat) "a" none).1 = 1
    ∧ SymTable_contains (SymTable_put (SymTable_new Nat) "a" none).2 "b" = 0
    ∧ (SymTable_get (SymTable_put (SymTable_new Nat) "a" none).2 "a" = none
       ∧ SymTable_contains (SymTable_put (SymTable_new Nat) "a" none).2 "a" = 1
       ∧ SymTable_get (SymTable_put (SymTable_new Nat) "a" none).2 "b" = none) :=
  ⟨by decide, by decide,
    null_value_indistinguishable (SymTable_new Nat) "a" "b" (by decide) (by decide)⟩

/-- Claim C10: the empty string is an ordinary key: put succeeds exactly when
it is unbound, and after a successful put it is contained, gets the stored
value, and can be removed. -/
theorem empty_string_key_spec {V : Type} (t : SymTable V) (v : Option V) :
    ((SymTable_put t "" v).1 = 1 ↔ SymTable_contains t "" = 0)
    ∧ (SymTable_contains t "" = 0 →
        SymTable_contains (SymTable_put t "" v).2 "" = 1
        ∧ SymTable_get (SymTable_put t "" v).2 "" = v
        ∧ (SymTable_remove (SymTable_put t "" v).2 "").1 = 1) := by
  constructor
  · constructor
    · intro h
      by_cases hc : SymTable_contains t "" ≠ 0
      · rw [SymTable_put, if_pos hc] at h
        simp at h
      · simpa using hc
    · intro h
      have hc : ¬ SymTable_contains t "" ≠ 0 := by simp [h]
      rw [SymTable_put, if_neg hc]
  · intro h
    have hc : ¬ SymTable_contains t "" ≠ 0 := by simp [h]
    rw [SymTable_put, if_neg hc]
    refine ⟨by simp [SymTable_contains, containsLoop], ?_, ?_⟩
    · simp [SymTable_get, getLoop]
    · simp [SymTable_remove, removeLoop]

/-- Witness for C10: the empty-string key on the empty table. -/
theorem empty_string_key_spec_witness :
    ((SymTable_put (SymTable_new Nat) "" (some 2)).1 = 1
      ↔ SymTable_contains (SymTable_new Nat) "" = 0)
    ∧ (SymTable_contains (SymTable_new Nat) "" = 0 →
        SymTable_contains (SymTable_put (SymTable_new Nat) "" (some 2)).2 "" = 1
        ∧ SymTable_get (SymTable_put (SymTable_new Nat) "" (some 2)).2 "" = some 2
        ∧ (SymTable_remove (SymTable_put (SymTable_new Nat) "" (some 2)).2 "").1 = 1) :=
  empty_string_key_spec (SymTable_new Nat) (some 2)

/-- The map loop is a `List.map` of the apply function over the chain. -/
theorem mapLoop_eq_map {V E A : Type} (f : String → Option V → E → A) (e : E)
    (l : List (abind V)) :
    mapLoop f e l = l.map (fun b => f b.key b.value e) := by
  induction l with
  | nil => rfl
  | cons b rest ih => simp [mapLoop, ih]

/-- When the remove loop succeeds, the surviving key-value pairs are the old
ones with the first pair carrying the key erased. -/
theorem removeLoop_map_eraseP {V : Type} (l : List (abind V)) (k : String)
    (l2 : List (abind V)) (h : removeLoop l k = some l2) :
    l2.map bindKV = (l.map bindKV).eraseP (fun p => p.1 == k) := by
  induction l generalizing l2 with
  | nil => simp [removeLoop] at h
  | cons b rest ih =>
    by_cases hk : b.key = k
    · rw [removeLoop, if_pos hk] at h
      obtain rfl : rest = l2 := Option.some.inj h
      rw [List.map_cons,
        List.eraseP_cons_of_pos (p := fun (q : String × Option V) => q.1 == k) (by simp [bindKV, hk])]
    · rw [removeLoop, if_neg hk] at h
      cases hr : removeLoop rest k with
      | none => rw [hr] at h; simp at h
      | some l2x =>
        rw [hr] at h
        simp only [Option.map_some'] at h
        obtain rfl : b :: l2x = l2 := Option.some.inj h
        rw [List.map_cons, List.map_cons,
          List.eraseP_cons_of_neg (p := fun (q : String × Option V) => q.1 == k) (by simp [bindKV, hk]),
          ih l2x hr]

/-- A predicate that matches at most one element of a list erases the same
element whether the list is scanned forward or backward. -/
theorem eraseP_reverse_of_unique {α : Type} (p : α → Bool) (l : List α)
    (h : l.countP p ≤ 1) : l.reverse.eraseP p = (l.eraseP p).reverse := by
  induction l with
  | nil => rfl
  | cons a rest ih =>
    by_cases hp : p a = true
    · have hz : rest.countP p = 0 := by
        rw [List.countP_cons_of_pos p rest hp] at h
        omega
      have habs : ∀ b ∈ rest.reverse, ¬ p b = true := fun b hb =>
        (List.countP_eq_zero.mp hz) b (List.mem_reverse.mp hb)
      rw [List.reverse_cons, List.eraseP_append_right [a] habs,
        List.eraseP_cons_of_pos hp, List.eraseP_cons_of_pos hp]
      simp
    · have hle : rest.countP p ≤ 1 := by
        rw [List.countP_cons_of_neg p rest hp] at h
        exact h
      rw [List.reverse_cons, List.eraseP_cons_of_neg hp, List.reverse_cons]
      by_cases hex : 0 < rest.countP p
      · obtain ⟨x, hx, hpx⟩ := List.countP_pos_iff.mp hex
        rw [List.eraseP_append_left hpx [a] (List.mem_reverse.mpr hx), ih hle]
      · have hz : rest.countP p = 0 := by omega
        have habs : ∀ b ∈ rest.reverse, ¬ p b = true := fun b hb =>
          (List.countP_eq_zero.mp hz) b (List.mem_reverse.mp hb)
        rw [List.eraseP_append_right [a] habs,
          List.eraseP_of_forall_not (List.countP_eq_zero.mp hz)]
        simp [List.eraseP_cons_of_neg hp]

/-- Pairs whose first components are listed without duplication give the
key-erase predicate at most one match. -/
theorem countP_key_le_one {V : Type} (acc : List (String × Option V))
    (k : String) (h : (acc.map Prod.fst).Nodup) :
    acc.countP (fun p => p.1 == k) ≤ 1 := by
  have h1 : (acc.map Prod.fst).countP (fun s => s == k)
      = acc.countP (fun p => p.1 == k) := by
    rw [List.countP_map]
    rfl
  rw [← h1]
  have h2 := List.nodup_iff_count_le_one.mp h k
  simpa [List.count] using h2

/-- One operation preserves the correspondence between the chain and the
insertion-order model, the uniqueness of the model keys, and the count
invariant, and grows the chain by at most one node. -/
theorem applyOp_sim {V : Type} (t : SymTable V)
    (acc : List (String × Option V)) (op : TableOp V)
    (h1 : t.first.map bindKV = acc.reverse)
    (h2 : (acc.map Prod.fst).Nodup)
    (h3 : t.uiSize = t.first.length % UINT_MOD) :
    (applyOp t op).first.map bindKV = (insStep acc op).reverse
    ∧ ((insStep acc op).map Prod.fst).Nodup
    ∧ (applyOp t op).uiSize = (applyOp t op).first.length % UINT_MOD
    ∧ (applyOp t op).first.length ≤ t.first.length + 1 := by
  have hkeys : t.first.map (fun b => b.key) = (acc.map Prod.fst).reverse := by
    have hcomp : t.first.map (fun b => b.key)
        = (t.first.map bindKV).map Prod.fst := by
      rw [List.map_map]; rfl
    rw [hcomp, h1, List.map_reverse]
  have hmem : ∀ k0 : String,
      (∃ b ∈ t.first, b.key = k0) ↔ k0 ∈ acc.map Prod.fst := by
    intro k0
    constructor
    · intro hb0
      obtain ⟨b, hb, hbk⟩ := hb0
      have hm : k0 ∈ t.first.map (fun b => b.key) := List.mem_map.mpr ⟨b, hb, hbk⟩
      rw [hkeys] at hm
      exact List.mem_reverse.mp hm
    · intro hk0
      have hm : k0 ∈ t.first.map (fun b => b.key) := by
        rw [hkeys]; exact List.mem_reverse.mpr hk0
      exact List.mem_map.mp hm
  cases op with
  | put k v =>
    by_cases hin : k ∈ acc.map Prod.fst
    · have hc : SymTable_contains t k ≠ 0 := by
        obtain ⟨b, hb, hbk⟩ := (hmem k).mpr hin
        intro h0
        exact ((containsLoop_eq_zero_iff t.first k).mp h0) b hb hbk
      have hany : acc.any (fun p => p.1 == k) = true := by
        obtain ⟨p0, hp0, hp0k⟩ := List.mem_map.mp hin
        exact List.any_eq_true.mpr ⟨p0, hp0, by simp [hp0k]⟩
      simp only [applyOp, insStep, SymTable_put, if_pos hc, hany, if_true]
      exact ⟨h1, h2, h3, Nat.le_succ _⟩
    · have habs : ∀ b ∈ t.first, b.key ≠ k := fun b hb hbk =>
        hin ((hmem k).mp ⟨b, hb, hbk⟩)
      have hc0 : SymTable_contains t k = 0 :=
        (containsLoop_eq_zero_iff t.first k).mpr habs
      have hany : ¬ acc.any (fun p => p.1 == k) = true := by
        intro hx
        obtain ⟨p0, hp0, hp0k⟩ := List.any_eq_true.mp hx
        exact hin (List.mem_map.mpr ⟨p0, hp0, by simpa using hp0k⟩)
      simp only [applyOp, insStep, SymTable_put]
      rw [if_neg (by simp [hc0]), if_neg hany]
      refine ⟨?_, ?_, ?_, ?_⟩
      · simp only [List.map_cons, List.reverse_append, List.reverse_cons,
          List.reverse_nil, List.nil_append, List.singleton_append, h1]
        rfl
      · rw [List.map_append]
        refine List.nodup_append.mpr ⟨h2, List.nodup_singleton k, ?_⟩
        intro a ha ha2
        simp only [List.map_cons, List.map_nil, List.mem_singleton] at ha2
        exact hin (ha2 ▸ ha)
      · simp only [List.length_cons]
        simp only [UINT_MOD] at h3 ⊢
        omega
      · simp
  | remove k =>
    cases hr : removeLoop t.first k with
    | none =>
      have habs := (removeLoop_eq_none_iff t.first k).mp hr
      have hnp : ∀ p0 ∈ acc, ¬ ((p0.1 == k) = true) := by
        intro p0 hp0 hpk
        have hk0 : p0.1 = k := by simpa using hpk
        obtain ⟨b, hb, hbk⟩ := (hmem k).mpr (List.mem_map.mpr ⟨p0, hp0, hk0⟩)
        exact habs b hb hbk
      simp only [applyOp, insStep, SymTable_remove, hr]
      rw [List.eraseP_of_forall_not hnp]
      exact ⟨h1, h2, h3, Nat.le_succ _⟩
    | some l2 =>
      obtain ⟨l1, b, l3, hEq, hAbs, hKey, hSplice⟩ :=
        removeLoop_some_spec t.first k l2 hr
      have hmapE := removeLoop_map_eraseP t.first k l2 hr
      have hcnt := countP_key_le_one acc k h2
      have hlen : t.first.length = l1.length + l3.length + 1 := by
        simp only [hEq, List.length_append, List.length_cons]
        omega
      have hlen2 : l2.length = l1.length + l3.length := by simp [hSplice]
      simp only [applyOp, insStep, SymTable_remove, hr]
      refine ⟨?_, ?_, ?_, ?_⟩
      · rw [hmapE, h1, eraseP_reverse_of_unique _ acc hcnt]
      · exact List.Nodup.sublist
          (List.Sublist.map Prod.fst (List.eraseP_sublist acc)) h2
      · simp only [UINT_MOD] at h3 ⊢
        omega
      · omega

/-- A whole operation sequence preserves the simulation invariants. -/
theorem foldl_sim {V : Type} (ops : List (TableOp V)) :
    ∀ (t : SymTable V) (acc : List (String × Option V)),
    t.first.map bindKV = acc.reverse →
    (acc.map Prod.fst).Nodup →
    t.uiSize = t.first.length % UINT_MOD →
    (ops.foldl applyOp t).first.map bindKV = (ops.foldl insStep acc).reverse
    ∧ ((ops.foldl insStep acc).map Prod.fst).Nodup
    ∧ (ops.foldl applyOp t).uiSize = (ops.foldl applyOp t).first.length % UINT_MOD
    ∧ (ops.foldl applyOp t).first.length ≤ t.first.length + ops.length := by
  induction ops with
  | nil =>
    intro t acc h1 h2 h3
    exact ⟨h1, h2, h3, by simp⟩
  | cons op rest ih =>
    intro t acc h1 h2 h3
    obtain ⟨s1, s2, s3, s4⟩ := applyOp_sim t acc op h1 h2 h3
    obtain ⟨r1, r2, r3, r4⟩ := ih (applyOp t op) (insStep acc op) s1 s2 s3
    simp only [List.foldl_cons, List.length_cons]
    exact ⟨r1, r2, r3, by omega⟩

/-- Invariants of every table reachable from the empty table: the chain in
reverse matches the insertion-order model, the model keys are unique, the
count matches the chain length modulo 2^32, and the chain is no longer than
the operation sequence. -/
theorem runOps_sim {V : Type} (ops : List (TableOp V)) :
    (runOps ops).first.map bindKV = (insModel ops).reverse
    ∧ ((insModel ops).map Prod.fst).Nodup
    ∧ (runOps ops).uiSize = (runOps ops).first.length % UINT_MOD
    ∧ (runOps ops).first.length ≤ ops.length := by
  have h := foldl_sim ops (SymTable_new V) [] (by rfl) (by simp) (by rfl)
  simpa [runOps, insModel, SymTable_new] using h

/-- Claim C4: in every table reachable from the empty table by puts and
removes, no two bindings in the chain carry equal keys, and the stored count
equals the number of bindings reachable from the head. -/
theorem reachable_invariants {V : Type} (ops : List (TableOp V))
    (h : ops.length < UINT_MOD) :
    ((runOps ops).first.map (fun b => b.key)).Nodup
    ∧ SymTable_getLength (runOps ops) = (runOps ops).first.length := by
  obtain ⟨h1, h2, h3, h4⟩ := runOps_sim ops
  constructor
  · have hk : (runOps ops).first.map (fun b => b.key)
        = ((insModel ops).map Prod.fst).reverse := by
      have hcomp : (runOps ops).first.map (fun b => b.key)
          = ((runOps ops).first.map bindKV).map Prod.fst := by
        rw [List.map_map]; rfl
      rw [hcomp, h1, List.map_reverse]
    rw [hk]
    exact List.nodup_reverse.mpr h2
  · rw [SymTable_getLength, h3]
    exact Nat.mod_eq_of_lt (lt_of_le_of_lt h4 h)

/-- Witness for C4: a short sequence of two inserts and one removal. -/
theorem reachable_invariants_witness :
    ([TableOp.put "a" (some 1), TableOp.put "b" (some 2),
      TableOp.remove "a"] : List (TableOp Nat)).length < UINT_MOD
    ∧ (((runOps [TableOp.put "a" (some 1), TableOp.put "b" (some 2),
          TableOp.remove "a"]).first.map (fun b => b.key)).Nodup
       ∧ SymTable_getLength (runOps [TableOp.put "a" (some 1),
            TableOp.put "b" (some 2), TableOp.remove "a"])
          = (runOps [TableOp.put "a" (some 1), TableOp.put "b" (some 2),
              TableOp.remove "a"] : SymTable Nat).first.length) :=
  ⟨by decide,
    reachable_invariants [TableOp.put "a" (some 1), TableOp.put "b" (some 2),
      TableOp.remove "a"] (by decide)⟩

/-- Claim C6: on a reachable table, the traversal invokes the apply function
exactly once per binding, visiting exactly size bindings in head-to-tail
chain order, which is the reverse of insertion order among the bindings
never removed; the same extra argument reaches every call, and the table is
unchanged afterwards. -/
theorem map_traversal_spec {V E : Type} (ops : List (TableOp V)) (extra : E)
    (h : ops.length < UINT_MOD) :
    (SymTable_map (runOps ops) (fun k v e => (k, v, e)) extra).length
        = SymTable_getLength (runOps ops)
    ∧ SymTable_map (runOps ops) (fun _ _ e => e) extra
        = List.replicate (SymTable_getLength (runOps ops)) extra
    ∧ SymTable_map (runOps ops) (fun k v e => (k, v, e)) extra
        = (runOps ops).first.map (fun b => (b.key, b.value, extra))
    ∧ SymTable_map (runOps ops) (fun k v _ => (k, v)) extra
        = (insModel ops).reverse
    ∧ (SymTable_map_run (runOps ops) (fun k v e => (k, v, e)) extra).2
        = runOps ops := by
  obtain ⟨h1, h2, h3, h4⟩ := runOps_sim ops
  have hlen : SymTable_getLength (runOps ops) = (runOps ops).first.length := by
    rw [SymTable_getLength, h3]
    exact Nat.mod_eq_of_lt (lt_of_le_of_lt h4 h)
  refine ⟨?_, ?_, ?_, ?_, rfl⟩
  · rw [SymTable_map, mapLoop_eq_map, List.length_map, hlen]
  · simp only [SymTable_map, mapLoop_eq_map]
    rw [hlen]
    exact List.map_const' _ extra
  · rw [SymTable_map, mapLoop_eq_map]
  · rw [SymTable_map, mapLoop_eq_map, ← h1]
    rfl

/-- Witness for C6: traversing the table built by two inserts. -/
theorem map_traversal_spec_witness :
    ([TableOp.put "x" (some 1), TableOp.put "y" none] : List (TableOp Nat)).length
        < UINT_MOD
    ∧ ((SymTable_map (runOps [TableOp.put "x" (some 1), TableOp.put "y" none])
          (fun k v e => (k, v, e)) (7 : Nat)).length
        = SymTable_getLength (runOps [TableOp.put "x" (some 1), TableOp.put "y" none])
       ∧ SymTable_map (runOps [TableOp.put "x" (some 1), TableOp.put "y" none])
          (fun _ _ e => e) (7 : Nat)
        = List.replicate (SymTable_getLength (runOps
            [TableOp.put "x" (some 1), TableOp.put "y" none])) (7 : Nat)
       ∧ SymTable_map (runOps [TableOp.put "x" (some 1), TableOp.put "y" none])
          (fun k v e => (k, v, e)) (7 : Nat)
        = (runOps [TableOp.put "x" (some 1), TableOp.put "y" none]).first.map
            (fun b => (b.key, b.value, (7 : Nat)))
       ∧ SymTable_map (runOps [TableOp.put "x" (some 1), TableOp.put "y" none])
          (fun k v _ => (k, v)) (7 : Nat)
        = (insModel [TableOp.put "x" (some 1), TableOp.put "y" none]).reverse
       ∧ (SymTable_map_run (runOps [TableOp.put "x" (some 1), TableOp.put "y" none])
          (fun k v e => (k, v, e)) (7 : Nat)).2
        = runOps [TableOp.put "x" (some 1), TableOp.put "y" none]) :=
  ⟨by decide,
    map_traversal_spec [TableOp.put "x" (some 1), TableOp.put "y" none]
      (7 : Nat) (by decide)⟩
